import Mathlib

/-!
Verification of the interval-collapsing logic of the haydn_op20 loader
(mirdata, src/mirdata/datasets/haydn_op20.py).

The two loaders `load_key` (lines 222-235) and `load_chords` (lines 324-334)
turn a time-ordered list of annotation events into three parallel lists
(start times, end times, labels) by collapsing consecutive events with equal
(normalized) labels into one interval.  We embed both loaders faithfully,
embed the generic collapse algorithm described by the specification, and
settle the frozen claims about them.
-/

/-- Model of the Python expression `s.replace(a, b)` for a single-character
pattern `a` and single-character replacement `b`: every occurrence of the
character `a` in `s` is replaced by `b`.  The loaders only ever call
`str.replace` with one-character arguments (`"-"`→`"b"`, `" "`→`":"`). -/
def pyReplace1 (a b : Char) (s : String) : String :=
  ⟨s.data.map (fun c => if c = a then b else c)⟩

/-- One annotation event: an integer tick time and a label string (for
`load_key` the label is `str(rn.key)`, for `load_chords` it is
`str(rn.pitchedCommonName)`).  Times are non-negative integer ticks
(`int(round(float(offset * resolution)))` of a non-negative offset). -/
structure Event where
  time : Nat
  label : String
deriving DecidableEq

/-- Normalization used by `load_key` when COMPARING labels:
`str(k["key"]).replace("-", "b")` (line 225). -/
def normKey (s : String) : String := pyReplace1 '-' 'b' s

/-- Space-to-colon substitution `.replace(" ", ":")` (line 228). -/
def colonize (s : String) : String := pyReplace1 ' ' ':' s

/-- The label `load_key` STORES for a non-first interval (line 228):
`str(...).replace("-", "b").replace(" ", ":")`. -/
def keyStore (s : String) : String := colonize (normKey s)

/-- Sortedness of the event times (non-decreasing), the precondition the
specification places on the input sequence. -/
def timesSorted (evs : List Event) : Prop :=
  List.Pairwise (fun a b => a ≤ b) (evs.map Event.time)

instance timesSortedDec (evs : List Event) : Decidable (timesSorted evs) :=
  List.instDecidablePairwise _

/-- The loop of `load_key` (lines 224-228): walk the events; whenever the
normalized key differs from the last stored name, append
(time, time - 1, colonized normalized key) to the three lists.
`pending` is `key_names[-1]`. -/
def keyLoop (pending : String) : List Event → List Nat × List Int × List String
  | [] => ([], [], [])
  | e :: rest =>
    if normKey e.label ≠ pending then
      let r := keyLoop (keyStore e.label) rest
      (e.time :: r.1, ((e.time : Int) - 1) :: r.2.1, keyStore e.label :: r.2.2)
    else keyLoop pending rest

/-- Embedding of `load_key` (lines 222-235).  `keys[0]` on an empty list
raises (IndexError), modelled as `none`.  Otherwise the three parallel
lists are initialized with start time 0 and first name
`str(keys[0]["key"]).replace("-", "b")` (line 223, note: no space
substitution on the first name), the loop runs over all events, and the
last event's time is appended to the end times (line 229). -/
def load_key (keys : List Event) : Option (List Nat × List Int × List String) :=
  match keys with
  | [] => none
  | k0 :: rest =>
    let r := keyLoop (normKey k0.label) (k0 :: rest)
    some (0 :: r.1,
          r.2.1 ++ [(((k0 :: rest).getLast (List.cons_ne_nil k0 rest)).time : Int)],
          normKey k0.label :: r.2.2)

/-- The loop of `load_chords` (lines 326-330): identical structure, but the
comparison and the stored name are both the raw label (`str(k["chord"])`). -/
def chordLoop (pending : String) : List Event → List Nat × List Int × List String
  | [] => ([], [], [])
  | e :: rest =>
    if e.label ≠ pending then
      let r := chordLoop e.label rest
      (e.time :: r.1, ((e.time : Int) - 1) :: r.2.1, e.label :: r.2.2)
    else chordLoop pending rest

/-- Embedding of `load_chords` (lines 324-334). -/
def load_chords (chords : List Event) : Option (List Nat × List Int × List String) :=
  match chords with
  | [] => none
  | c0 :: rest =>
    let r := chordLoop c0.label (c0 :: rest)
    some (0 :: r.1,
          r.2.1 ++ [(((c0 :: rest).getLast (List.cons_ne_nil c0 rest)).time : Int)],
          c0.label :: r.2.2)

/-- The walk of the generic Run-Length Interval Collapser of spec section 4.1
(step 2): for each event whose normalized key differs from the pending
interval's label, close the pending interval at (time - 1) and open a new
one at the event's time carrying the new normalized label. -/
def collapseLoop (norm : String → String) (pending : String) :
    List Event → List Nat × List Int × List String
  | [] => ([], [], [])
  | e :: rest =>
    if norm e.label ≠ pending then
      let r := collapseLoop norm (norm e.label) rest
      (e.time :: r.1, ((e.time : Int) - 1) :: r.2.1, norm e.label :: r.2.2)
    else collapseLoop norm pending rest

/-- The generic Run-Length Interval Collapser, following the Algorithm and
Error conditions of spec section 4.1 (with section 7): it fails with an
`InvalidInput` condition — modelled as `none` — if the input is empty or
if the event times are not sorted ascending; otherwise the first pending
interval starts at 0 with the normalized first label, the remaining
events are walked by `collapseLoop`, and the final pending interval is
closed at the last event's time. -/
def collapse (norm : String → String) : List Event → Option (List Nat × List Int × List String)
  | [] => none
  | e0 :: rest =>
    if timesSorted (e0 :: rest) then
      let r := collapseLoop norm (norm e0.label) rest
      some (0 :: r.1,
            r.2.1 ++ [(((e0 :: rest).getLast (List.cons_ne_nil e0 rest)).time : Int)],
            norm e0.label :: r.2.2)
    else none

/-- Number of maximal runs of consecutive events with equal `norm`-normalized
labels (0 for the empty list). -/
def runCount (norm : String → String) : List Event → Nat
  | [] => 0
  | [_] => 1
  | a :: b :: rest =>
      (if norm a.label = norm b.label then 0 else 1) + runCount norm (b :: rest)

/-- Times of the first events of the second, third, ... maximal runs of
equal `norm`-normalized labels, given the previous event `prev`: an event
opens a new run exactly when its normalized label differs from the
previous event's. -/
def runChangeTimes (norm : String → String) (prev : Event) : List Event → List Nat
  | [] => []
  | b :: rest =>
    if norm b.label = norm prev.label then runChangeTimes norm b rest
    else b.time :: runChangeTimes norm b rest

/-- Times of the first events of all maximal runs of equal `norm`-normalized
labels of a sequence, in order. -/
def runFirstTimes (norm : String → String) : List Event → List Nat
  | [] => []
  | a :: rest => a.time :: runChangeTimes norm a rest

/-- Generic form of the three loops, with a comparison function `cmp` and a
storage function `store` (for `keyLoop` these differ; for `chordLoop` and
`collapseLoop` they coincide). -/
def gloop (cmp store : String → String) (pending : String) :
    List Event → List Nat × List Int × List String
  | [] => ([], [], [])
  | e :: rest =>
    if cmp e.label ≠ pending then
      let r := gloop cmp store (store e.label) rest
      (e.time :: r.1, ((e.time : Int) - 1) :: r.2.1, store e.label :: r.2.2)
    else gloop cmp store pending rest

/-- Number of comparison changes the loop sees starting from `pending`. -/
def countChanges (cmp : String → String) (pending : String) : List Event → Nat
  | [] => 0
  | e :: rest =>
    if cmp e.label = pending then countChanges cmp pending rest
    else 1 + countChanges cmp (cmp e.label) rest

/-- The interval list determined by a start `x`, inner boundaries `cs` and a
final end `T`: `[(x, c1 - 1), (c1, c2 - 1), ..., (ck, T)]`. -/
def mkIntervals (x T : Nat) : List Nat → List (Nat × Int)
  | [] => [(x, (T : Int))]
  | c :: cs => (x, (c : Int) - 1) :: mkIntervals c T cs

/-- Membership of a tick in an interval under the inclusive convention. -/
def inIvB (t : Nat) (p : Nat × Int) : Bool :=
  decide (p.1 ≤ t) && decide ((t : Int) ≤ p.2)

/-- The tick one before `t`, as an integer (`time - 1` of the loop body). -/
def predInt (t : Nat) : Int := (t : Int) - 1

/-- Generic form of the two loaders: initialize the parallel lists with start
0 and the comparison form of the first label, run the generic loop over all
events, then append the last event's time to the end times. -/
def gload (cmp store : String → String) : List Event → Option (List Nat × List Int × List String)
  | [] => none
  | e0 :: rest =>
    let r := gloop cmp store (cmp e0.label) (e0 :: rest)
    some (0 :: r.1,
          r.2.1 ++ [(((e0 :: rest).getLast (List.cons_ne_nil e0 rest)).time : Int)],
          cmp e0.label :: r.2.2)

theorem keyLoop_eq_gloop (pending : String) (evs : List Event) :
    keyLoop pending evs = gloop normKey keyStore pending evs := by
  induction evs generalizing pending with
  | nil => rfl
  | cons e rest ih => simp only [keyLoop, gloop, ih]

theorem chordLoop_eq_gloop (pending : String) (evs : List Event) :
    chordLoop pending evs = gloop (fun x => x) (fun x => x) pending evs := by
  induction evs generalizing pending with
  | nil => rfl
  | cons e rest ih => simp only [chordLoop, gloop, ih]

theorem collapseLoop_eq_gloop (norm : String → String) (pending : String) (evs : List Event) :
    collapseLoop norm pending evs = gloop norm norm pending evs := by
  induction evs generalizing pending with
  | nil => rfl
  | cons e rest ih => simp only [collapseLoop, gloop, ih]


section GloopLemmas

variable (cmp store : String → String)

theorem gloop_ends_eq (pending : String) (evs : List Event) :
    (gloop cmp store pending evs).2.1
      = (gloop cmp store pending evs).1.map predInt := by
  induction evs generalizing pending with
  | nil => simp [gloop]
  | cons e rest ih =>
    by_cases h : cmp e.label = pending
    · simp [gloop, h, ih, predInt]
    · simp [gloop, h, ih, predInt]

theorem gloop_names_length (pending : String) (evs : List Event) :
    (gloop cmp store pending evs).2.2.length = (gloop cmp store pending evs).1.length := by
  induction evs generalizing pending with
  | nil => simp [gloop]
  | cons e rest ih =>
    by_cases h : cmp e.label = pending
    · simp [gloop, h, ih]
    · simp [gloop, h, ih]

theorem gloop_starts_sublist (pending : String) (evs : List Event) :
    (gloop cmp store pending evs).1.Sublist (evs.map Event.time) := by
  induction evs generalizing pending with
  | nil => simp [gloop]
  | cons e rest ih =>
    by_cases h : cmp e.label = pending
    · simp only [gloop, h, ne_eq, not_true_eq_false, if_false, List.map_cons]
      exact (ih pending).cons _
    · simp only [gloop, h, ne_eq, not_false_eq_true, if_true, List.map_cons]
      exact (ih (store e.label)).cons₂ _

theorem gloop_names_mem (pending : String) (evs : List Event) (nm : String) :
    nm ∈ (gloop cmp store pending evs).2.2 → ∃ e ∈ evs, nm = store e.label := by
  induction evs generalizing pending with
  | nil => simp [gloop]
  | cons e rest ih =>
    by_cases h : cmp e.label = pending
    · simp only [gloop, h, ne_eq, not_true_eq_false, if_false]
      intro hm
      obtain ⟨e1, he1, hnm⟩ := ih pending hm
      exact ⟨e1, List.mem_cons_of_mem _ he1, hnm⟩
    · simp only [gloop, h, ne_eq, not_false_eq_true, if_true, List.mem_cons]
      intro hm
      rcases hm with hm | hm
      · exact ⟨e, Or.inl rfl, hm⟩
      · obtain ⟨e1, he1, hnm⟩ := ih (store e.label) hm
        exact ⟨e1, Or.inr he1, hnm⟩

theorem gloop_self_pending (e : Event) (rest : List Event) :
    gloop cmp store (cmp e.label) (e :: rest) = gloop cmp store (cmp e.label) rest := by
  simp [gloop]

theorem gloop_names_countChanges (pending : String) (evs : List Event)
    (h : ∀ e ∈ evs, store e.label = cmp e.label) :
    (gloop cmp store pending evs).2.2.length = countChanges cmp pending evs := by
  induction evs generalizing pending with
  | nil => simp [gloop, countChanges]
  | cons e rest ih =>
    have hrest : ∀ x ∈ rest, store x.label = cmp x.label :=
      fun x hx => h x (List.mem_cons_of_mem _ hx)
    by_cases hc : cmp e.label = pending
    · simp [gloop, countChanges, hc, ih _ hrest]
    · simp only [gloop, countChanges, hc, ne_eq, not_false_eq_true, if_true, if_false,
        List.length_cons]
      rw [h e (List.mem_cons_self _ _), ih _ hrest]
      omega

theorem gloop_eq_collapseLoop (pending : String) (evs : List Event)
    (h : ∀ e ∈ evs, store e.label = cmp e.label) :
    gloop cmp store pending evs = gloop cmp cmp pending evs := by
  induction evs generalizing pending with
  | nil => rfl
  | cons e rest ih =>
    have hrest : ∀ x ∈ rest, store x.label = cmp x.label :=
      fun x hx => h x (List.mem_cons_of_mem _ hx)
    by_cases hc : cmp e.label = pending
    · simp [gloop, hc, ih _ hrest]
    · simp [gloop, hc, ih _ hrest, h e (List.mem_cons_self _ _)]

theorem gloop_dedup (a b : Event) (post : List Event)
    (hab : cmp a.label = cmp b.label) (ha : store a.label = cmp a.label) :
    ∀ (pre : List Event) (pending : String),
      gloop cmp store pending (pre ++ a :: b :: post)
        = gloop cmp store pending (pre ++ a :: post) := by
  intro pre
  induction pre with
  | nil =>
    intro pending
    by_cases hc : cmp a.label = pending
    · have hb : cmp b.label = pending := by rw [← hab]; exact hc
      simp [gloop, hc, hb]
    · have hb : cmp b.label = store a.label := by rw [← hab, ha]
      simp [gloop, hc, hb]
  | cons p pre ih =>
    intro pending
    by_cases hc : cmp p.label = pending
    · simp [gloop, hc, ih]
    · simp [gloop, hc, ih]

end GloopLemmas


theorem load_key_eq_gload (keys : List Event) :
    load_key keys = gload normKey keyStore keys := by
  cases keys with
  | nil => rfl
  | cons k0 rest => simp only [load_key, gload, keyLoop_eq_gloop]

theorem load_chords_eq_gload (chords : List Event) :
    load_chords chords = gload (fun x => x) (fun x => x) chords := by
  cases chords with
  | nil => rfl
  | cons c0 rest => simp only [load_chords, gload, chordLoop_eq_gloop]

theorem collapse_eq_gload (norm : String → String) (evs : List Event)
    (hsorted : timesSorted evs) : collapse norm evs = gload norm norm evs := by
  cases evs with
  | nil => rfl
  | cons e0 rest =>
    simp only [collapse, if_pos hsorted, gload, collapseLoop_eq_gloop, gloop_self_pending]

/-- Shape of a successful generic load: a forced 0 start, end times that are
the later starts minus one followed by the last event's time, and one name
per start. -/
theorem gload_shape (cmp store : String → String) (e0 : Event) (rest : List Event)
    (s : List Nat) (e : List Int) (n : List String)
    (h : gload cmp store (e0 :: rest) = some (s, e, n)) :
    ∃ ls ns,
      s = 0 :: ls
      ∧ e = ls.map predInt
            ++ [(((e0 :: rest).getLast (List.cons_ne_nil e0 rest)).time : Int)]
      ∧ n = cmp e0.label :: ns
      ∧ ns.length = ls.length
      ∧ ls.Sublist ((e0 :: rest).map Event.time)
      ∧ (∀ nm ∈ ns, ∃ ev ∈ e0 :: rest, nm = store ev.label) := by
  refine ⟨(gloop cmp store (cmp e0.label) (e0 :: rest)).1,
          (gloop cmp store (cmp e0.label) (e0 :: rest)).2.2, ?_⟩
  simp only [gload, Option.some.injEq, Prod.mk.injEq] at h
  obtain ⟨hs, he, hn⟩ := h
  refine ⟨hs.symm, ?_, hn.symm, gloop_names_length cmp store _ _,
          gloop_starts_sublist cmp store _ _, gloop_names_mem cmp store _ _⟩
  rw [← he, gloop_ends_eq]

theorem pairwise_le_getLast (l : List Nat) (h : l ≠ [])
    (hp : List.Pairwise (fun a b => a ≤ b) l) : ∀ x ∈ l, x ≤ l.getLast h := by
  induction l with
  | nil => exact absurd rfl h
  | cons a t ih =>
    intro x hx
    cases t with
    | nil =>
      simp only [List.mem_singleton] at hx
      simp [hx, List.getLast]
    | cons b t2 =>
      rw [List.getLast_cons (by simp : b :: t2 ≠ [])]
      rcases List.mem_cons.mp hx with rfl | hx2
      · exact le_trans ((List.pairwise_cons.mp hp).1 _ (List.getLast_mem _))
          (le_refl _)
      · exact ih (by simp) (List.pairwise_cons.mp hp).2 x hx2

theorem zip_mkIntervals (T : Nat) : ∀ (cs : List Nat) (x : Nat),
    (x :: cs).zip (cs.map predInt ++ [(T : Int)]) = mkIntervals x T cs := by
  intro cs
  induction cs with
  | nil => intro x; rfl
  | cons c cs ih =>
    intro x
    simp only [List.map_cons, List.cons_append, List.zip_cons_cons, mkIntervals]
    rw [ih c]
    simp [predInt]

theorem mkIntervals_start_le (T : Nat) : ∀ (cs : List Nat) (x : Nat),
    List.Pairwise (fun a b => a ≤ b) (x :: cs) →
    ∀ p ∈ mkIntervals x T cs, x ≤ p.1 := by
  intro cs
  induction cs with
  | nil =>
    intro x _ p hm
    simp only [mkIntervals, List.mem_singleton] at hm
    simp [hm]
  | cons c cs ih =>
    intro x hp p hm
    simp only [mkIntervals, List.mem_cons] at hm
    rcases hm with rfl | hm
    · simp
    · have hxc : x ≤ c := (List.pairwise_cons.mp hp).1 _ (List.mem_cons_self _ _)
      exact le_trans hxc (ih c (List.pairwise_cons.mp hp).2 p hm)

theorem mkIntervals_countP_zero (t T : Nat) : ∀ (cs : List Nat) (x : Nat),
    List.Pairwise (fun a b => a ≤ b) (x :: cs) → t < x →
    (mkIntervals x T cs).countP (inIvB t) = 0 := by
  intro cs
  induction cs with
  | nil =>
    intro x _ ht
    have : inIvB t (x, (T : Int)) = false := by
      simp [inIvB, Nat.not_le.mpr ht]
    simp [mkIntervals, List.countP_cons, this]
  | cons c cs ih =>
    intro x hp ht
    have hhead : inIvB t (x, (c : Int) - 1) = false := by
      simp [inIvB, Nat.not_le.mpr ht]
    have hxc : x ≤ c := (List.pairwise_cons.mp hp).1 _ (List.mem_cons_self _ _)
    simp only [mkIntervals, List.countP_cons, hhead, if_false, Nat.add_zero,
      Bool.false_eq_true]
    exact ih c (List.pairwise_cons.mp hp).2 (lt_of_lt_of_le ht hxc)

theorem mkIntervals_countP_one (t T : Nat) : ∀ (cs : List Nat) (x : Nat),
    List.Pairwise (fun a b => a ≤ b) (x :: cs) → x ≤ t → t ≤ T →
    (mkIntervals x T cs).countP (inIvB t) = 1 := by
  intro cs
  induction cs with
  | nil =>
    intro x _ hxt htT
    have : inIvB t (x, (T : Int)) = true := by
      simp [inIvB, hxt]
      omega
    simp [mkIntervals, List.countP_cons, this]
  | cons c cs ih =>
    intro x hp hxt htT
    have hptail : List.Pairwise (fun a b => a ≤ b) (c :: cs) :=
      (List.pairwise_cons.mp hp).2
    by_cases hc : t < c
    · have hhead : inIvB t (x, (c : Int) - 1) = true := by
        simp [inIvB, hxt]
        omega
      have htail : (mkIntervals c T cs).countP (inIvB t) = 0 :=
        mkIntervals_countP_zero t T cs c hptail hc
      simp [mkIntervals, List.countP_cons, hhead, htail]
    · have hhead : inIvB t (x, (c : Int) - 1) = false := by
        simp only [inIvB, Bool.and_eq_false_iff]
        right
        simp only [decide_eq_false_iff_not, not_le]
        omega
      have htail : (mkIntervals c T cs).countP (inIvB t) = 1 :=
        ih c hptail (Nat.le_of_not_lt hc) htT
      simp [mkIntervals, List.countP_cons, hhead, htail]

theorem zip_map_pred_concat (T : Int) : ∀ (ls : List Nat),
    ((ls.map predInt) ++ [T]).zip ls = (ls.map predInt).zip ls := by
  intro ls
  induction ls with
  | nil => rfl
  | cons c ls ih =>
    simp only [List.map_cons, List.cons_append, List.zip_cons_cons, ih]

theorem mem_zip_map_pred : ∀ (ls : List Nat),
    ∀ p ∈ (ls.map predInt).zip ls, p.1 = (p.2 : Int) - 1 := by
  intro ls
  induction ls with
  | nil => intro p hp; simp at hp
  | cons c ls ih =>
    intro p hp
    simp only [List.map_cons, List.zip_cons_cons, List.mem_cons] at hp
    rcases hp with rfl | hp
    · rfl
    · exact ih p hp

theorem runCount_eq_countChanges (cmp : String → String) :
    ∀ (rest : List Event) (a : Event),
      runCount cmp (a :: rest) = 1 + countChanges cmp (cmp a.label) rest := by
  intro rest
  induction rest with
  | nil => intro a; simp [runCount, countChanges]
  | cons b rest ih =>
    intro a
    by_cases hab : cmp a.label = cmp b.label
    · simp [runCount, countChanges, hab, ih b]
    · have hba : cmp b.label ≠ cmp a.label := fun hh => hab hh.symm
      simp [runCount, countChanges, hab, hba, ih b]

theorem gload_nil (cmp store : String → String) : gload cmp store [] = none := rfl

theorem gload_lengths (cmp store : String → String) (evs : List Event)
    (s : List Nat) (e : List Int) (n : List String)
    (h : gload cmp store evs = some (s, e, n)) :
    s.length = e.length ∧ e.length = n.length := by
  cases evs with
  | nil => simp [gload] at h
  | cons e0 rest =>
    obtain ⟨ls, ns, hs, he, hn, hlen, _, _⟩ := gload_shape cmp store e0 rest s e n h
    subst hs
    subst he
    subst hn
    simp [hlen]

theorem gload_head_start (cmp store : String → String) (evs : List Event)
    (s : List Nat) (e : List Int) (n : List String)
    (h : gload cmp store evs = some (s, e, n)) : s.head? = some 0 := by
  cases evs with
  | nil => simp [gload] at h
  | cons e0 rest =>
    obtain ⟨ls, ns, hs, _, _, _, _, _⟩ := gload_shape cmp store e0 rest s e n h
    subst hs
    rfl

theorem gload_last_end (cmp store : String → String) (evs : List Event)
    (s : List Nat) (e : List Int) (n : List String) (klast : Event)
    (h : gload cmp store evs = some (s, e, n))
    (hl : evs.getLast? = some klast) : e.getLast? = some (klast.time : Int) := by
  cases evs with
  | nil => simp [gload] at h
  | cons e0 rest =>
    obtain ⟨ls, ns, _, he, _, _, _, _⟩ := gload_shape cmp store e0 rest s e n h
    subst he
    rw [List.getLast?_eq_getLast _ (List.cons_ne_nil e0 rest)] at hl
    have hk : klast = (e0 :: rest).getLast (List.cons_ne_nil e0 rest) :=
      (Option.some.injEq _ _ ▸ hl).symm
    rw [List.getLast?_concat, hk]

theorem gload_ends_pred (cmp store : String → String) (evs : List Event)
    (s : List Nat) (e : List Int) (n : List String)
    (h : gload cmp store evs = some (s, e, n)) :
    ∀ p ∈ e.zip s.tail, p.1 = (p.2 : Int) - 1 := by
  cases evs with
  | nil => simp [gload] at h
  | cons e0 rest =>
    obtain ⟨ls, ns, hs, he, _, _, _, _⟩ := gload_shape cmp store e0 rest s e n h
    subst hs
    subst he
    intro p hp
    rw [List.tail_cons, zip_map_pred_concat] at hp
    exact mem_zip_map_pred ls p hp

theorem gload_tail_starts_mem (cmp store : String → String) (evs : List Event)
    (s : List Nat) (e : List Int) (n : List String)
    (h : gload cmp store evs = some (s, e, n)) :
    ∀ x ∈ s.tail, x ∈ evs.map Event.time := by
  cases evs with
  | nil => simp [gload] at h
  | cons e0 rest =>
    obtain ⟨ls, ns, hs, _, _, _, hsub, _⟩ := gload_shape cmp store e0 rest s e n h
    subst hs
    intro x hx
    exact hsub.subset hx

theorem gload_starts_sorted (cmp store : String → String) (evs : List Event)
    (s : List Nat) (e : List Int) (n : List String)
    (hsorted : timesSorted evs)
    (h : gload cmp store evs = some (s, e, n)) :
    List.Pairwise (fun a b => a ≤ b) s := by
  cases evs with
  | nil => simp [gload] at h
  | cons e0 rest =>
    obtain ⟨ls, ns, hs, _, _, _, hsub, _⟩ := gload_shape cmp store e0 rest s e n h
    subst hs
    refine List.pairwise_cons.mpr ⟨fun b _ => Nat.zero_le b, ?_⟩
    exact List.Pairwise.sublist hsub hsorted

theorem gload_coverage (cmp store : String → String) (evs : List Event)
    (s : List Nat) (e : List Int) (n : List String)
    (hsorted : timesSorted evs)
    (h : gload cmp store evs = some (s, e, n)) :
    ∀ ev ∈ evs, (s.zip e).countP (inIvB ev.time) = 1 := by
  cases evs with
  | nil => simp [gload] at h
  | cons e0 rest =>
    obtain ⟨ls, ns, hs, he, _, _, hsub, _⟩ := gload_shape cmp store e0 rest s e n h
    subst hs
    subst he
    intro ev hev
    rw [zip_mkIntervals]
    have hpls : List.Pairwise (fun a b => a ≤ b) (0 :: ls) :=
      List.pairwise_cons.mpr ⟨fun b _ => Nat.zero_le b, List.Pairwise.sublist hsub hsorted⟩
    have hmem : ev.time ∈ (e0 :: rest).map Event.time := List.mem_map_of_mem _ hev
    have hle : ev.time ≤ ((e0 :: rest).getLast (List.cons_ne_nil e0 rest)).time := by
      have hne : (e0 :: rest).map Event.time ≠ [] := by simp
      have := pairwise_le_getLast ((e0 :: rest).map Event.time) hne hsorted ev.time hmem
      rwa [List.getLast_map] at this
    exact mkIntervals_countP_one ev.time _ ls 0 hpls (Nat.zero_le _) hle

theorem gload_runCount (cmp store : String → String) (evs : List Event)
    (s : List Nat) (e : List Int) (n : List String)
    (hst : ∀ ev ∈ evs, store ev.label = cmp ev.label)
    (h : gload cmp store evs = some (s, e, n)) :
    n.length = runCount cmp evs := by
  cases evs with
  | nil => simp [gload] at h
  | cons e0 rest =>
    simp only [gload, Option.some.injEq, Prod.mk.injEq] at h
    obtain ⟨_, _, hn⟩ := h
    rw [← hn]
    simp only [List.length_cons]
    rw [gloop_names_countChanges cmp store _ _ hst]
    have hcc : countChanges cmp (cmp e0.label) (e0 :: rest)
        = countChanges cmp (cmp e0.label) rest := by
      simp [countChanges]
    rw [hcc, runCount_eq_countChanges]
    omega

theorem gload_store_irrel (cmp store : String → String) (evs : List Event)
    (hst : ∀ ev ∈ evs, store ev.label = cmp ev.label) :
    gload cmp store evs = gload cmp cmp evs := by
  cases evs with
  | nil => rfl
  | cons e0 rest => simp only [gload, gloop_eq_collapseLoop cmp store _ _ hst]

theorem gload_dedup (cmp store : String → String) (pre : List Event) (a b : Event)
    (post : List Event)
    (hab : cmp a.label = cmp b.label) (ha : store a.label = cmp a.label) :
    Option.map (fun r => (r.1, r.2.2)) (gload cmp store (pre ++ a :: b :: post))
      = Option.map (fun r => (r.1, r.2.2)) (gload cmp store (pre ++ a :: post)) := by
  cases pre with
  | nil =>
    have hd := gloop_dedup cmp store a b post hab ha [] (cmp a.label)
    simp only [List.nil_append] at hd ⊢
    simp [gload, hd]
  | cons p pre =>
    have hd := gloop_dedup cmp store a b post hab ha (p :: pre) (cmp p.label)
    simp only [List.cons_append] at hd ⊢
    simp [gload, hd]

theorem gloop_starts_changeTimes (cmp store : String → String) :
    ∀ (rest : List Event) (prev : Event),
      (∀ ev ∈ rest, store ev.label = cmp ev.label) →
      (gloop cmp store (cmp prev.label) rest).1 = runChangeTimes cmp prev rest := by
  intro rest
  induction rest with
  | nil => intro prev _; rfl
  | cons b rest ih =>
    intro prev hst
    have hrest : ∀ ev ∈ rest, store ev.label = cmp ev.label :=
      fun ev hev => hst ev (List.mem_cons_of_mem _ hev)
    by_cases hb : cmp b.label = cmp prev.label
    · have h1 : gloop cmp store (cmp prev.label) (b :: rest)
          = gloop cmp store (cmp prev.label) rest := by
        simp [gloop, hb]
      have h2 : runChangeTimes cmp prev (b :: rest) = runChangeTimes cmp b rest := by
        simp [runChangeTimes, hb]
      rw [h1, h2, ← hb]
      exact ih b hrest
    · have h1 : (gloop cmp store (cmp prev.label) (b :: rest)).1
          = b.time :: (gloop cmp store (store b.label) rest).1 := by
        simp [gloop, hb]
      have h2 : runChangeTimes cmp prev (b :: rest) = b.time :: runChangeTimes cmp b rest := by
        simp [runChangeTimes, hb]
      rw [h1, h2, hst b (List.mem_cons_self _ _), ih b hrest]

theorem gload_ends_runFirstTimes (cmp store : String → String) (evs : List Event)
    (s : List Nat) (e : List Int) (n : List String) (klast : Event)
    (hst : ∀ ev ∈ evs, store ev.label = cmp ev.label)
    (h : gload cmp store evs = some (s, e, n))
    (hl : evs.getLast? = some klast) :
    e = ((runFirstTimes cmp evs).tail.map predInt) ++ [(klast.time : Int)] := by
  cases evs with
  | nil => simp [gload] at h
  | cons e0 rest =>
    simp only [gload, Option.some.injEq, Prod.mk.injEq] at h
    obtain ⟨_, he, _⟩ := h
    rw [List.getLast?_eq_getLast _ (List.cons_ne_nil e0 rest)] at hl
    have hk : klast = (e0 :: rest).getLast (List.cons_ne_nil e0 rest) :=
      (Option.some.injEq _ _ ▸ hl).symm
    have hrest : ∀ ev ∈ rest, store ev.label = cmp ev.label :=
      fun ev hev => hst ev (List.mem_cons_of_mem _ hev)
    rw [← he, gloop_ends_eq, gloop_self_pending,
        gloop_starts_changeTimes cmp store rest e0 hrest, hk]
    rfl

theorem mkIntervals_countP_le_one (t T : Nat) : ∀ (cs : List Nat) (x : Nat),
    List.Pairwise (fun a b => a ≤ b) (x :: cs) →
    (mkIntervals x T cs).countP (inIvB t) ≤ 1 := by
  intro cs
  induction cs with
  | nil =>
    intro x _
    have := List.countP_le_length (p := inIvB t) (l := mkIntervals x T [])
    simpa [mkIntervals] using this
  | cons c cs ih =>
    intro x hp
    have hptail : List.Pairwise (fun a b => a ≤ b) (c :: cs) :=
      (List.pairwise_cons.mp hp).2
    by_cases hc : t < c
    · have htail : (mkIntervals c T cs).countP (inIvB t) = 0 :=
        mkIntervals_countP_zero t T cs c hptail hc
      simp only [mkIntervals, List.countP_cons, htail, Nat.zero_add]
      by_cases hh : inIvB t (x, (c : Int) - 1) = true
      · simp [hh]
      · simp [hh]
    · have hhead : inIvB t (x, (c : Int) - 1) = false := by
        simp only [inIvB, Bool.and_eq_false_iff]
        right
        simp only [decide_eq_false_iff_not, not_le]
        omega
      have htail := ih c hptail
      simp only [mkIntervals, List.countP_cons, hhead, Bool.false_eq_true, if_false,
        Nat.add_zero]
      exact htail

theorem gload_countP_le_one (cmp store : String → String) (evs : List Event)
    (s : List Nat) (e : List Int) (n : List String)
    (hsorted : timesSorted evs)
    (h : gload cmp store evs = some (s, e, n)) :
    ∀ t : Nat, (s.zip e).countP (inIvB t) ≤ 1 := by
  cases evs with
  | nil => simp [gload] at h
  | cons e0 rest =>
    obtain ⟨ls, ns, hs, he, _, _, hsub, _⟩ := gload_shape cmp store e0 rest s e n h
    subst hs
    subst he
    intro t
    rw [zip_mkIntervals]
    have hpls : List.Pairwise (fun a b => a ≤ b) (0 :: ls) :=
      List.pairwise_cons.mpr ⟨fun b _ => Nat.zero_le b, List.Pairwise.sublist hsub hsorted⟩
    exact mkIntervals_countP_le_one t _ ls 0 hpls

/-- Mapping the space-to-colon character substitution over a character list
that contains a space changes the list. -/
theorem map_space_ne (l : List Char) (h1 : ' ' ∈ l) :
    l.map (fun c => if c = ' ' then ':' else c) ≠ l := by
  induction l with
  | nil => simp at h1
  | cons c l ih =>
    intro hdata
    simp only [List.map_cons, List.cons.injEq] at hdata
    rcases List.mem_cons.mp h1 with rfl | hmem
    · rw [if_pos rfl] at hdata
      exact absurd hdata.1 (by decide)
    · exact ih hmem hdata.2

/-- Cancelling the space-to-colon substitution is impossible for a string
that contains a space: `colonize` changes it. -/
theorem colonize_ne_of_space (str : String) (h1 : ' ' ∈ str.data) :
    colonize str ≠ str := by
  intro hEq
  have hdata : (colonize str).data = str.data := congrArg String.data hEq
  exact map_space_ne str.data h1 hdata

/-- C1 (claim as stated is false): in `load_key`, two consecutive events
whose key strings are equal after replacing the dash with a flat sign CAN
be split into separate intervals when they occur after a label change and
the key string contains a space: the comparison at line 225 is made
against the stored name, which carries the extra space-to-colon
substitution of line 228.  Concretely, with events
(0,"C major"), (4,"B- major"), (8,"Bb major"), dropping the third event
changes the produced start times and labels, so the third event opened a
new interval even though its normalized key equals the second one's. -/
theorem c1_counterexample :
    timesSorted [⟨0,"C major"⟩, ⟨4,"B- major"⟩, ⟨8,"Bb major"⟩]
    ∧ normKey "B- major" = normKey "Bb major"
    ∧ Option.map (fun r => (r.1, r.2.2))
        (load_key [⟨0,"C major"⟩, ⟨4,"B- major"⟩, ⟨8,"Bb major"⟩])
      ≠ Option.map (fun r => (r.1, r.2.2))
        (load_key [⟨0,"C major"⟩, ⟨4,"B- major"⟩]) :=
  ⟨by decide, by decide, by decide⟩

/-- C1 (amended): two consecutive events with equal normalized labels are
never split into separate output intervals — dropping the second event of
such a pair leaves the produced start times and labels unchanged —
provided the stored label of the earlier event equals its comparison key.
For `load_chords` (identity normalization) this holds unconditionally; for
`load_key` it holds whenever the normalized key string of the earlier
event contains no space (`keyStore` fixes it), and the counterexample
shows it fails otherwise. -/
theorem c1_no_split_amended :
    (∀ (pre : List Event) (a b : Event) (post : List Event),
        timesSorted (pre ++ a :: b :: post) → a.label = b.label →
        Option.map (fun r => (r.1, r.2.2)) (load_chords (pre ++ a :: b :: post))
          = Option.map (fun r => (r.1, r.2.2)) (load_chords (pre ++ a :: post)))
    ∧ (∀ (pre : List Event) (a b : Event) (post : List Event),
        timesSorted (pre ++ a :: b :: post) → normKey a.label = normKey b.label →
        keyStore a.label = normKey a.label →
        Option.map (fun r => (r.1, r.2.2)) (load_key (pre ++ a :: b :: post))
          = Option.map (fun r => (r.1, r.2.2)) (load_key (pre ++ a :: post))) := by
  constructor
  · intro pre a b post _ hab
    rw [load_chords_eq_gload, load_chords_eq_gload]
    exact gload_dedup _ _ pre a b post hab rfl
  · intro pre a b post _ hab hsp
    rw [load_key_eq_gload, load_key_eq_gload]
    exact gload_dedup _ _ pre a b post hab hsp

/-- Witness for C1 (amended) at the spec's own example: keys "B-" then "Bb"
merge into a single interval. -/
theorem c1_witness :
    timesSorted [⟨0,"B-"⟩, ⟨4,"Bb"⟩]
    ∧ normKey "B-" = normKey "Bb"
    ∧ keyStore "B-" = normKey "B-"
    ∧ Option.map (fun r => (r.1, r.2.2)) (load_key [⟨0,"B-"⟩, ⟨4,"Bb"⟩])
        = Option.map (fun r => (r.1, r.2.2)) (load_key [⟨0,"B-"⟩]) :=
  ⟨by decide, by decide, by decide,
    c1_no_split_amended.2 [] ⟨0,"B-"⟩ ⟨4,"Bb"⟩ [] (by decide) (by decide) (by decide)⟩

/-- C2 (claim as stated is false): neither loader checks that the event
times are sorted ascending; on the unsorted input (5,"a"), (3,"c") both
return a complete interval result instead of failing. -/
theorem c2_counterexample :
    ¬ timesSorted [⟨5,"a"⟩, ⟨3,"c"⟩]
    ∧ load_key [⟨5,"a"⟩, ⟨3,"c"⟩] = some ([0,3], [2,3], ["a","c"])
    ∧ load_chords [⟨5,"a"⟩, ⟨3,"c"⟩] = some ([0,3], [2,3], ["a","c"]) :=
  ⟨by decide, by decide, by decide⟩

/-- C2 (amended): both loaders fail exactly on the empty input (the
unconditional indexing of the first element, an out-of-range failure
rather than a typed InvalidInput), with no partial result; any non-empty
input — sorted or not — produces a complete result. -/
theorem c2_failure_amended :
    load_key [] = none
    ∧ load_chords [] = none
    ∧ ∀ (k : Event) (ks : List Event),
        (load_key (k :: ks)).isSome = true ∧ (load_chords (k :: ks)).isSome = true := by
  refine ⟨rfl, rfl, fun k ks => ⟨?_, ?_⟩⟩
  · simp [load_key]
  · simp [load_chords]

/-- C3 (claim as stated is false): on the sorted key events (0,"C major"),
(4,"G major"), (8,"G major") there are two maximal runs of equal
normalized labels, but `load_key` produces three intervals, because the
third event's normalized key "G major" is compared against the stored
name "G:major". -/
theorem c3_counterexample :
    timesSorted [⟨0,"C major"⟩, ⟨4,"G major"⟩, ⟨8,"G major"⟩]
    ∧ runCount normKey [⟨0,"C major"⟩, ⟨4,"G major"⟩, ⟨8,"G major"⟩] = 2
    ∧ Option.map (fun r => r.2.2.length)
        (load_key [⟨0,"C major"⟩, ⟨4,"G major"⟩, ⟨8,"G major"⟩]) = some 3 :=
  ⟨by decide, by decide, by decide⟩

/-- C3 (amended): for every non-empty time-sorted event sequence the number
of output intervals equals the number of maximal runs of equal normalized
labels — unconditionally for `load_chords`, and for `load_key` under the
proviso that every stored label equals its comparison key (no normalized
key string contains a space); the counterexample shows the proviso is
necessary. -/
theorem c3_run_count_amended :
    (∀ (evs : List Event) (st : List Nat) (en : List Int) (nm : List String),
        timesSorted evs → load_chords evs = some (st, en, nm) →
        nm.length = runCount (fun x => x) evs)
    ∧ (∀ (evs : List Event) (st : List Nat) (en : List Int) (nm : List String),
        timesSorted evs → (∀ ev ∈ evs, keyStore ev.label = normKey ev.label) →
        load_key evs = some (st, en, nm) →
        nm.length = runCount normKey evs) := by
  constructor
  · intro evs st en nm _ h
    rw [load_chords_eq_gload] at h
    exact gload_runCount _ _ evs st en nm (fun ev _ => rfl) h
  · intro evs st en nm _ hsp h
    rw [load_key_eq_gload] at h
    exact gload_runCount _ _ evs st en nm hsp h

/-- Witness for C3 (amended): three space-free key events with two runs
yield exactly two intervals. -/
theorem c3_witness :
    timesSorted [⟨0,"B-"⟩, ⟨4,"Bb"⟩, ⟨9,"C"⟩]
    ∧ (∀ ev ∈ [⟨0,"B-"⟩, ⟨4,"Bb"⟩, (⟨9,"C"⟩ : Event)], keyStore ev.label = normKey ev.label)
    ∧ load_key [⟨0,"B-"⟩, ⟨4,"Bb"⟩, ⟨9,"C"⟩] = some ([0,9], [8,9], ["Bb","C"])
    ∧ (["Bb","C"] : List String).length = runCount normKey [⟨0,"B-"⟩, ⟨4,"Bb"⟩, ⟨9,"C"⟩] :=
  ⟨by decide, by decide, by decide,
    c3_run_count_amended.2 [⟨0,"B-"⟩, ⟨4,"Bb"⟩, ⟨9,"C"⟩] [0,9] [8,9] ["Bb","C"]
      (by decide) (by decide) (by decide)⟩

/-- C4 (confirmed): for every non-empty time-sorted event sequence, each
input event's time lies within exactly one output interval's inclusive
[start, end] range (the count of intervals containing it is one), for both
loaders. -/
theorem c4_coverage (evs : List Event)
    (st : List Nat) (en : List Int) (nm : List String)
    (stc : List Nat) (enc : List Int) (nmc : List String)
    (hsorted : timesSorted evs)
    (hk : load_key evs = some (st, en, nm))
    (hc : load_chords evs = some (stc, enc, nmc)) :
    (∀ ev ∈ evs, (st.zip en).countP (inIvB ev.time) = 1)
    ∧ (∀ ev ∈ evs, (stc.zip enc).countP (inIvB ev.time) = 1) := by
  rw [load_key_eq_gload] at hk
  rw [load_chords_eq_gload] at hc
  exact ⟨gload_coverage _ _ evs st en nm hsorted hk,
         gload_coverage _ _ evs stc enc nmc hsorted hc⟩

/-- Witness for C4 at a concrete sorted two-event input. -/
theorem c4_witness :
    timesSorted [⟨0,"C"⟩, ⟨5,"G"⟩]
    ∧ load_key [⟨0,"C"⟩, ⟨5,"G"⟩] = some ([0,5], [4,5], ["C","G"])
    ∧ load_chords [⟨0,"C"⟩, ⟨5,"G"⟩] = some ([0,5], [4,5], ["C","G"])
    ∧ ((([0,5] : List Nat).zip ([4,5] : List Int)).countP (inIvB 0) = 1) :=
  ⟨by decide, by decide, by decide,
    (c4_coverage [⟨0,"C"⟩, ⟨5,"G"⟩] [0,5] [4,5] ["C","G"] [0,5] [4,5] ["C","G"]
      (by decide) (by decide) (by decide)).1 ⟨0,"C"⟩ (by decide)⟩

/-- C5 (confirmed): for every non-empty event sequence (sorted or not) the
first output start time is 0, regardless of the first event's time, for
both loaders. -/
theorem c5_first_start (evs : List Event)
    (st : List Nat) (en : List Int) (nm : List String)
    (stc : List Nat) (enc : List Int) (nmc : List String)
    (hk : load_key evs = some (st, en, nm))
    (hc : load_chords evs = some (stc, enc, nmc)) :
    st.head? = some 0 ∧ stc.head? = some 0 := by
  rw [load_key_eq_gload] at hk
  rw [load_chords_eq_gload] at hc
  exact ⟨gload_head_start _ _ evs st en nm hk,
         gload_head_start _ _ evs stc enc nmc hc⟩

/-- Witness for C5 at an input whose first event time is 7, not 0. -/
theorem c5_witness :
    load_key [⟨7,"x"⟩] = some ([0], [7], ["x"])
    ∧ load_chords [⟨7,"x"⟩] = some ([0], [7], ["x"])
    ∧ ([0] : List Nat).head? = some 0 :=
  ⟨by decide, by decide,
    (c5_first_start [⟨7,"x"⟩] [0] [7] ["x"] [0] [7] ["x"] (by decide) (by decide)).1⟩

/-- C6 (claim as stated is false): `load_key` on the spaced keys
(0,"C major"), (4,"G major"), (8,"G major") produces the non-final end
time 7, yet the maximal normalized-label runs start at times 0 and 4
only, so 7 is not the time of the first event of any following run minus
one — the comparison against the colonized stored name opens an interval
at the SECOND event of the final run. -/
theorem c6_counterexample :
    runFirstTimes normKey [⟨0,"C major"⟩, ⟨4,"G major"⟩, ⟨8,"G major"⟩] = [0, 4]
    ∧ load_key [⟨0,"C major"⟩, ⟨4,"G major"⟩, ⟨8,"G major"⟩]
        = some ([0,4,8], [3,7,8], ["C major","G:major","G:major"])
    ∧ ¬ ∃ t ∈ runFirstTimes normKey [⟨0,"C major"⟩, ⟨4,"G major"⟩, ⟨8,"G major"⟩],
        (7 : Int) = (t : Int) - 1 :=
  ⟨by decide, by decide, by decide⟩

/-- C6 (amended): for every non-empty event sequence the last output end
time equals the last event's time exactly (no subtraction), for both
loaders unconditionally; and the full end-time list equals the times of
the first events of the second, third, ... maximal normalized-label runs,
each minus one, followed by the last event's time — unconditionally for
`load_chords`, and for `load_key` provided every stored label equals its
comparison key (no normalized key string contains a space), the
counterexample showing the proviso is necessary. -/
theorem c6_boundaries_amended :
    (∀ (evs : List Event) (klast : Event)
        (st : List Nat) (en : List Int) (nm : List String)
        (stc : List Nat) (enc : List Int) (nmc : List String),
        load_key evs = some (st, en, nm) → load_chords evs = some (stc, enc, nmc) →
        evs.getLast? = some klast →
        en.getLast? = some (klast.time : Int) ∧ enc.getLast? = some (klast.time : Int))
    ∧ (∀ (evs : List Event) (klast : Event)
        (stc : List Nat) (enc : List Int) (nmc : List String),
        load_chords evs = some (stc, enc, nmc) → evs.getLast? = some klast →
        enc = ((runFirstTimes (fun x => x) evs).tail.map predInt) ++ [(klast.time : Int)])
    ∧ (∀ (evs : List Event) (klast : Event)
        (st : List Nat) (en : List Int) (nm : List String),
        (∀ ev ∈ evs, keyStore ev.label = normKey ev.label) →
        load_key evs = some (st, en, nm) → evs.getLast? = some klast →
        en = ((runFirstTimes normKey evs).tail.map predInt) ++ [(klast.time : Int)]) := by
  refine ⟨?_, ?_, ?_⟩
  · intro evs klast st en nm stc enc nmc hk hc hl
    rw [load_key_eq_gload] at hk
    rw [load_chords_eq_gload] at hc
    exact ⟨gload_last_end _ _ evs st en nm klast hk hl,
           gload_last_end _ _ evs stc enc nmc klast hc hl⟩
  · intro evs klast stc enc nmc hc hl
    rw [load_chords_eq_gload] at hc
    exact gload_ends_runFirstTimes _ _ evs stc enc nmc klast (fun ev _ => rfl) hc hl
  · intro evs klast st en nm hsp hk hl
    rw [load_key_eq_gload] at hk
    exact gload_ends_runFirstTimes _ _ evs st en nm klast hsp hk hl

/-- Witness for C6 (amended) on sorted space-free keys with two runs: the
end times are the second run's first event time 9 minus one, then the
last event's time 9 verbatim. -/
theorem c6_witness :
    (∀ ev ∈ [⟨0,"B-"⟩, ⟨4,"Bb"⟩, (⟨9,"C"⟩ : Event)], keyStore ev.label = normKey ev.label)
    ∧ load_key [⟨0,"B-"⟩, ⟨4,"Bb"⟩, ⟨9,"C"⟩] = some ([0,9], [8,9], ["Bb","C"])
    ∧ [⟨0,"B-"⟩, ⟨4,"Bb"⟩, (⟨9,"C"⟩ : Event)].getLast? = some ⟨9,"C"⟩
    ∧ ([8,9] : List Int)
        = ((runFirstTimes normKey [⟨0,"B-"⟩, ⟨4,"Bb"⟩, ⟨9,"C"⟩]).tail.map predInt)
          ++ [((9 : Nat) : Int)] :=
  ⟨by decide, by decide, by decide,
    c6_boundaries_amended.2.2 [⟨0,"B-"⟩, ⟨4,"Bb"⟩, ⟨9,"C"⟩] ⟨9,"C"⟩ [0,9] [8,9] ["Bb","C"]
      (by decide) (by decide) (by decide)⟩

/-- C7 (confirmed): for every non-empty time-sorted event sequence, the
output start times are non-decreasing, each non-final interval ends
strictly before the next interval starts, and the intervals are genuinely
pairwise non-overlapping — no tick lies in more than one interval's
inclusive [start, end] range — for both loaders. -/
theorem c7_ordered_disjoint (evs : List Event)
    (st : List Nat) (en : List Int) (nm : List String)
    (stc : List Nat) (enc : List Int) (nmc : List String)
    (hsorted : timesSorted evs)
    (hk : load_key evs = some (st, en, nm))
    (hc : load_chords evs = some (stc, enc, nmc)) :
    (List.Pairwise (fun a b => a ≤ b) st
      ∧ (∀ p ∈ en.zip st.tail, p.1 < (p.2 : Int))
      ∧ (∀ t : Nat, (st.zip en).countP (inIvB t) ≤ 1))
    ∧ (List.Pairwise (fun a b => a ≤ b) stc
      ∧ (∀ p ∈ enc.zip stc.tail, p.1 < (p.2 : Int))
      ∧ (∀ t : Nat, (stc.zip enc).countP (inIvB t) ≤ 1)) := by
  rw [load_key_eq_gload] at hk
  rw [load_chords_eq_gload] at hc
  refine ⟨⟨gload_starts_sorted _ _ evs st en nm hsorted hk, ?_,
           gload_countP_le_one _ _ evs st en nm hsorted hk⟩,
          ⟨gload_starts_sorted _ _ evs stc enc nmc hsorted hc, ?_,
           gload_countP_le_one _ _ evs stc enc nmc hsorted hc⟩⟩
  · intro p hp
    rw [gload_ends_pred _ _ evs st en nm hk p hp]
    omega
  · intro p hp
    rw [gload_ends_pred _ _ evs stc enc nmc hc p hp]
    omega

/-- Witness for C7: the start times 0, 5 of a two-run input are
non-decreasing. -/
theorem c7_witness :
    timesSorted [⟨0,"C"⟩, ⟨5,"G"⟩]
    ∧ load_key [⟨0,"C"⟩, ⟨5,"G"⟩] = some ([0,5], [4,5], ["C","G"])
    ∧ List.Pairwise (fun a b => a ≤ b) ([0,5] : List Nat) :=
  ⟨by decide, by decide,
    ((c7_ordered_disjoint [⟨0,"C"⟩, ⟨5,"G"⟩] [0,5] [4,5] ["C","G"] [0,5] [4,5] ["C","G"]
      (by decide) (by decide) (by decide)).1).1⟩

/-- C8 (claim as stated is false): `load_key` does not equal the generic
collapse with the dash-to-flat key normalization — nor with the full
stored normalization — because only non-first stored labels receive the
extra space-to-colon substitution and the comparison mixes the two forms;
moreover on a non-time-sorted list even `load_chords` differs from the
generic collapse, which fails there while the loader succeeds. -/
theorem c8_counterexample :
    load_key [⟨0,"C major"⟩, ⟨4,"B- major"⟩]
        ≠ collapse normKey [⟨0,"C major"⟩, ⟨4,"B- major"⟩]
    ∧ load_key [⟨0,"C major"⟩, ⟨4,"B- major"⟩]
        ≠ collapse keyStore [⟨0,"C major"⟩, ⟨4,"B- major"⟩]
    ∧ load_chords [⟨5,"a"⟩, ⟨3,"c"⟩] ≠ collapse (fun x => x) [⟨5,"a"⟩, ⟨3,"c"⟩] :=
  ⟨by decide, by decide, by decide⟩

/-- C8 (amended): on time-sorted annotation lists `load_chords` equals the
generic collapse of spec section 4.1 with the identity normalization, and
`load_key` equals the generic collapse with the dash-to-flat normalization
exactly on those time-sorted lists in which every stored label equals its
comparison key (no normalized key string contains a space).  The
counterexample shows both restrictions are necessary: the loaders skip
the generic collapse's InvalidInput failure on unsorted input, and the
mixed space-to-colon substitution breaks the equality on spaced keys. -/
theorem c8_refinement_amended :
    (∀ evs : List Event, timesSorted evs →
        load_chords evs = collapse (fun x => x) evs)
    ∧ (∀ evs : List Event, timesSorted evs →
        (∀ ev ∈ evs, keyStore ev.label = normKey ev.label) →
        load_key evs = collapse normKey evs) := by
  constructor
  · intro evs hsorted
    rw [load_chords_eq_gload, collapse_eq_gload _ _ hsorted]
  · intro evs hsorted hsp
    rw [load_key_eq_gload, collapse_eq_gload _ _ hsorted]
    exact gload_store_irrel _ _ evs hsp

/-- Witness for C8 (amended) on sorted, space-free key strings. -/
theorem c8_witness :
    timesSorted [⟨0,"B-"⟩, ⟨4,"Bb"⟩]
    ∧ (∀ ev ∈ [⟨0,"B-"⟩, (⟨4,"Bb"⟩ : Event)], keyStore ev.label = normKey ev.label)
    ∧ load_key [⟨0,"B-"⟩, ⟨4,"Bb"⟩] = collapse normKey [⟨0,"B-"⟩, ⟨4,"Bb"⟩] :=
  ⟨by decide, by decide,
    c8_refinement_amended.2 [⟨0,"B-"⟩, ⟨4,"Bb"⟩] (by decide) (by decide)⟩

/-- C9 (confirmed): the first label returned by `load_key` is the first
event's key string with the dash replaced by a flat sign and spaces left
intact, every later label additionally has spaces replaced by colons, and
a first key string containing a space therefore differs from any later
label carrying the same normalized key. -/
theorem c9_label_formatting (k0 : Event) (rest : List Event)
    (st : List Nat) (en : List Int) (nm : List String)
    (hk : load_key (k0 :: rest) = some (st, en, nm)) :
    nm.head? = some (normKey k0.label)
    ∧ (∀ x ∈ nm.tail, ∃ ev ∈ k0 :: rest, x = colonize (normKey ev.label))
    ∧ (' ' ∈ (normKey k0.label).data →
        ∀ ev : Event, normKey ev.label = normKey k0.label →
          colonize (normKey ev.label) ≠ normKey k0.label) := by
  rw [load_key_eq_gload] at hk
  obtain ⟨ls, ns, _, _, hn, _, _, hmem⟩ := gload_shape _ _ k0 rest st en nm hk
  subst hn
  refine ⟨rfl, ?_, ?_⟩
  · intro x hx
    exact hmem x hx
  · intro hsp ev hev
    rw [hev]
    exact colonize_ne_of_space _ hsp

/-- Witness for C9: with first key "C major", the first label keeps its
space while the second interval's label for "G major" is "G:major". -/
theorem c9_witness :
    load_key [⟨0,"C major"⟩, ⟨4,"G major"⟩] = some ([0,4], [3,4], ["C major","G:major"])
    ∧ (["C major","G:major"] : List String).head? = some (normKey "C major") :=
  ⟨by decide,
    (c9_label_formatting ⟨0,"C major"⟩ [⟨4,"G major"⟩] [0,4] [3,4] ["C major","G:major"]
      (by decide)).1⟩

/-- C10 (confirmed): on every non-empty annotation list both loaders return
equally many start times, end times and labels. -/
theorem c10_parallel_lengths (evs : List Event)
    (st : List Nat) (en : List Int) (nm : List String)
    (stc : List Nat) (enc : List Int) (nmc : List String)
    (hk : load_key evs = some (st, en, nm))
    (hc : load_chords evs = some (stc, enc, nmc)) :
    (st.length = en.length ∧ en.length = nm.length)
    ∧ (stc.length = enc.length ∧ enc.length = nmc.length) := by
  rw [load_key_eq_gload] at hk
  rw [load_chords_eq_gload] at hc
  exact ⟨gload_lengths _ _ evs st en nm hk,
         gload_lengths _ _ evs stc enc nmc hc⟩

/-- Witness for C10 on a three-event input with two runs. -/
theorem c10_witness :
    load_key [⟨0,"C"⟩, ⟨5,"C"⟩, ⟨6,"G"⟩] = some ([0,6], [5,6], ["C","G"])
    ∧ load_chords [⟨0,"C"⟩, ⟨5,"C"⟩, ⟨6,"G"⟩] = some ([0,6], [5,6], ["C","G"])
    ∧ (([0,6] : List Nat).length = ([5,6] : List Int).length
        ∧ ([5,6] : List Int).length = (["C","G"] : List String).length) :=
  ⟨by decide, by decide,
    (c10_parallel_lengths [⟨0,"C"⟩, ⟨5,"C"⟩, ⟨6,"G"⟩] [0,6] [5,6] ["C","G"]
      [0,6] [5,6] ["C","G"] (by decide) (by decide)).1⟩
